import Mathlib

/-!
Verification of the GitHub-repository path resolution, folder guard, branch
allocator and file-operation executors of the mcps repository
(src/mcps/docs/app/tools/github.ts and src/mcps/configs/app/tools/github.ts).

JavaScript strings are modelled as `List Char`; each definition below is a
direct transcription of the corresponding source function, with JS string
methods (`split`, `startsWith`, `includes`, `replace` of anchored slash
regexes, …) replaced by executable Lean equivalents defined here.
-/

namespace Mcps

/-- A JavaScript string, modelled as its list of characters. -/
abbrev Str : Type := List Char

/-- Decidable equality for `Except`, used to evaluate concrete runs. -/
instance exceptDecEq {ε α : Type} [DecidableEq ε] [DecidableEq α] :
    DecidableEq (Except ε α) := fun x y =>
  match x, y with
  | .ok a, .ok b =>
    if h : a = b then isTrue (by rw [h]) else isFalse (fun hh => by cases hh; exact h rfl)
  | .error a, .error b =>
    if h : a = b then isTrue (by rw [h]) else isFalse (fun hh => by cases hh; exact h rfl)
  | .ok _, .error _ => isFalse (fun hh => by cases hh)
  | .error _, .ok _ => isFalse (fun hh => by cases hh)

/-- The slash character test used by the path-normalisation regexes
`/^\/+/` and `/\/+$/`. -/
def isSlash (c : Char) : Bool := c == '/'

/-- `path.replace(/^\/+/, '')`: strip all leading slashes. -/
def stripLead (s : Str) : Str := s.dropWhile isSlash

/-- `path.replace(/\/+$/, '')`: strip all trailing slashes. -/
def stripTrail (s : Str) : Str := (s.reverse.dropWhile isSlash).reverse

/-- `s.trim()`: strip leading and trailing whitespace. -/
def jsTrim (s : Str) : Str :=
  ((s.dropWhile Char.isWhitespace).reverse.dropWhile Char.isWhitespace).reverse

/-- `s.split(c)` for a single-character separator `c` (JS `String.split`):
`splitC c [] = [[]]`, separators produce empty pieces. -/
def splitC (c : Char) : Str → List Str
  | [] => [[]]
  | a :: as =>
    match splitC c as with
    | [] => [[]]
    | p :: ps => if a = c then [] :: p :: ps else (a :: p) :: ps

/-- `parts.join('/')`-style join with a single-character separator. -/
def joinC (c : Char) : List Str → Str
  | [] => []
  | [p] => p
  | p :: q :: ps => p ++ c :: joinC c (q :: ps)

/-- Locate the first occurrence of `sep` in `l`; returns the part before it
and the part after it. -/
def findSubstr (sep : Str) : Str → Option (Str × Str)
  | [] => if sep.isEmpty then some ([], []) else none
  | a :: as =>
    if sep.isPrefixOf (a :: as) then some ([], (a :: as).drop sep.length)
    else
      match findSubstr sep as with
      | some (b, aft) => some (a :: b, aft)
      | none => none

/-- Fuelled worker for `splitOnSep`. -/
def splitOnSepFuel (sep : Str) : Nat → Str → List Str
  | 0, l => [l]
  | fuel + 1, l =>
    match findSubstr sep l with
    | none => [l]
    | some (b, aft) => b :: splitOnSepFuel sep fuel aft

/-- `s.split(sep)` for a non-empty multi-character separator (JS
`String.split`); used for `cleanPath.split('/tree/')`.  The fuel
`l.length` is enough because every occurrence consumes at least one
character. -/
def splitOnSep (sep l : Str) : List Str := splitOnSepFuel sep l.length l

/-- `l.includes(pat)` (JS `String.includes`): substring containment,
as "some position of `l` starts with `pat`". -/
def strIncludes : Str → Str → Bool
  | [], pat => pat.isPrefixOf []
  | a :: t, pat => pat.isPrefixOf (a :: t) || strIncludes t pat

/-- Character class `[a-zA-Z0-9]` of the file-extension regex. -/
def isExtChar (c : Char) : Bool :=
  ('a' ≤ c && c ≤ 'z') || ('A' ≤ c && c ≤ 'Z') || ('0' ≤ c && c ≤ '9')

/-- `/\.[a-zA-Z0-9]+$/.test(p)`: `p` ends with a dot followed by one or
more alphanumeric characters. -/
def hasFileExt (p : Str) : Bool :=
  !(p.reverse.takeWhile isExtChar).isEmpty &&
    (p.reverse.dropWhile isExtChar).head? == some '.'

/-- Character class `[a-zA-Z0-9._-]` of the owner/repo validation regex. -/
def isRepoChar (c : Char) : Bool :=
  isExtChar c || c == '.' || c == '_' || c == '-'

/-- `/^[a-zA-Z0-9._-]+$/.test(s)`. -/
def validRepoName (s : Str) : Bool := !s.isEmpty && s.all isRepoChar

/-- Result of `parseGitHubRepoPath` (github.ts lines 507-513). -/
structure RepoPathDescriptor where
  owner : Str
  repo : Str
  folder : Option Str
  specificFile : Option Str
  isFile : Bool
deriving DecidableEq, Repr

/-- `cleanPath.startsWith('https://') || cleanPath.startsWith('http://')`
followed by `replace(/^https?:\/\//, '')` (github.ts lines 522-524). -/
def stripProtocol (s : Str) : Str :=
  if "https://".data.isPrefixOf s then s.drop 8
  else if "http://".data.isPrefixOf s then s.drop 7
  else s

/-- Strip a leading `github.com/` (github.ts lines 527-529). -/
def stripGithubHost (s : Str) : Str :=
  if "github.com/".data.isPrefixOf s then s.drop 11 else s

/-- Strip a trailing `.git` (github.ts lines 532-534). -/
def stripGitSuffix (s : Str) : Str :=
  if ".git".data.isSuffixOf s then s.take (s.length - 4) else s

/-- The normalisation pipeline of `parseGitHubRepoPath`
(github.ts lines 519-534): trim, strip outer slashes, protocol,
`github.com/` host, `.git` suffix. -/
def cleanRepoPath (s : Str) : Str :=
  stripGitSuffix (stripGithubHost (stripProtocol (stripTrail (stripLead (jsTrim s)))))

/-- The `(folder, specificFile, isFile)` classification of an extracted
sub-path: given the sub-path's segments `L` and the joined sub-path
`fullPath`, test the file-extension regex; a file keeps the full path as
`specificFile` and, when there is more than one segment, all but the last
segment as `folder`; otherwise the full path is the `folder`
(github.ts lines 565-577 and 597-610). -/
def classifyPath (L : List Str) (fullPath : Str) : Option Str × Option Str × Bool :=
  if hasFileExt fullPath then
    ((if L.length > 1 then some (joinC '/' L.dropLast) else none), some fullPath, true)
  else (some fullPath, none, false)

/-- Final owner/repo validation of `parseGitHubRepoPath`
(github.ts lines 614-634). -/
def finalizeDescriptor (ow rep : Str) (folder specificFile : Option Str)
    (isFile : Bool) : Except Str RepoPathDescriptor :=
  if ow.isEmpty || rep.isEmpty then
    .error ("Invalid repo path: owner and repo cannot be empty. Got owner=\"".data
      ++ ow ++ "\", repo=\"".data ++ rep ++ "\"".data)
  else if !validRepoName ow then
    .error ("Invalid owner name: ".data ++ ow
      ++ ". Must contain only alphanumeric characters, dots, underscores, and hyphens.".data)
  else if !validRepoName rep then
    .error ("Invalid repo name: ".data ++ rep
      ++ ". Must contain only alphanumeric characters, dots, underscores, and hyphens.".data)
  else .ok ⟨ow, rep, folder, specificFile, isFile⟩

/-- Apply `finalizeDescriptor` to a classification triple. -/
def finalizeWith (ow rep : Str) (t : Option Str × Option Str × Bool) :
    Except Str RepoPathDescriptor :=
  finalizeDescriptor ow rep t.1 t.2.1 t.2.2

/-- Classification of the path after the branch name of a `/tree/` URL
(github.ts lines 559-578): with more than one segment in
`branchAndFolder`, drop the branch name, join the remaining segments and
classify them (the code re-splits the joined path to compute the parent
folder); otherwise there is no folder. -/
def treeWithOwner (ow rep : Str) (bfParts : List Str) : Except Str RepoPathDescriptor :=
  if bfParts.length > 1 then
    finalizeWith ow rep
      (classifyPath (splitC '/' (joinC '/' (bfParts.drop 1)))
        (joinC '/' (bfParts.drop 1)))
  else finalizeWith ow rep (none, none, false)

/-- Branch of `parseGitHubRepoPath` for `/tree/` URLs (github.ts lines
543-578): the part before `/tree/` must have at least two `/`-separated
segments, `owner` and `repo` (`repoParts[0]`, `repoParts[1]`). -/
def parseTreePart (repoPath rp bf : Str) : Except Str RepoPathDescriptor :=
  if (splitC '/' rp).length < 2 then
    .error ("Invalid repo path in tree URL: ".data ++ repoPath)
  else
    treeWithOwner ((splitC '/' rp).getD 0 []) ((splitC '/' rp).getD 1 [])
      (splitC '/' bf)

/-- Classification of the sub-path of a plain `owner/repo[/path]` path
(github.ts lines 592-611): `rest` is `parts.slice(2)`. -/
def plainWithParts (ow rep : Str) (rest : List Str) : Except Str RepoPathDescriptor :=
  if rest.isEmpty then finalizeWith ow rep (none, none, false)
  else finalizeWith ow rep (classifyPath rest (joinC '/' rest))

/-- Branch of `parseGitHubRepoPath` for plain `owner/repo[/path]` paths
(github.ts lines 579-612). -/
def parsePlainPart (repoPath cleanPath : Str) : Except Str RepoPathDescriptor :=
  if (splitC '/' cleanPath).length < 2 then
    .error ("Invalid repo path format: ".data ++ repoPath
      ++ ". Expected format: owner/repo or owner/repo/folder".data)
  else
    plainWithParts ((splitC '/' cleanPath).getD 0 []) ((splitC '/' cleanPath).getD 1 [])
      ((splitC '/' cleanPath).drop 2)

/-- The `/tree/` separator. -/
def treeSep : Str := "/tree/".data

/-- Dispatch on `cleanPath.includes('/tree/')` (github.ts lines 543-547):
a split with more than one piece means the separator occurs; exactly two
pieces (`treeParts.length === 2`) are required, otherwise the tree URL
is malformed. -/
def parseCleaned (repoPath cleanPath : Str) : Except Str RepoPathDescriptor :=
  if (splitOnSep treeSep cleanPath).length > 1 then
    if (splitOnSep treeSep cleanPath).length = 2 then
      parseTreePart repoPath ((splitOnSep treeSep cleanPath).getD 0 [])
        ((splitOnSep treeSep cleanPath).getD 1 [])
    else .error ("Invalid GitHub tree URL format: ".data ++ repoPath)
  else parsePlainPart repoPath cleanPath

/-- `parseGitHubRepoPath` (github.ts lines 507-635). An empty input is
falsy in JS and rejected up front. -/
def parseGitHubRepoPath (repoPath : Str) : Except Str RepoPathDescriptor :=
  if repoPath.isEmpty then
    .error "GitHub repo path is required and must be a string".data
  else parseCleaned repoPath (cleanRepoPath repoPath)

/-- The core of `validatePath` for a present, non-empty folder
(github.ts lines 117-127): both sides are normalised by stripping outer
slashes and the path must start with `folder + "/"` or equal the
folder. -/
def validateWithFolder (path f : Str) : Bool :=
  (stripTrail (stripLead f) ++ ['/']).isPrefixOf (stripTrail (stripLead path))
    || stripTrail (stripLead path) == stripTrail (stripLead f)

/-- `validatePath` (github.ts lines 112-128): with no restriction (absent
or empty folder, both falsy in JS) every path is allowed. -/
def validatePath (path : Str) : Option Str → Bool
  | none => true
  | some f => if f.isEmpty then true else validateWithFolder path f

/-- `enforceFolderSecurity` (github.ts lines 131-143): return the path
unchanged when it validates, otherwise throw an access-denied error
naming both the path and the folder. -/
def enforceFolderSecurity (path : Str) : Option Str → Except Str Str
  | none => .ok path
  | some f =>
    if f.isEmpty then .ok path
    else if validatePath path (some f) then .ok path
    else
      .error ("Access denied: Path \"".data ++ path
        ++ "\" is outside the allowed folder \"".data ++ f ++ "\"".data)

/-- The core of `ensurePathInFolder` for a present, non-empty folder
(github.ts lines 151-164): strip leading slashes from the path and outer
slashes from the folder; if the path does not already live inside the
folder, prepend `folder + "/"`. -/
def ensureWithFolder (path f : Str) : Str :=
  if !((stripTrail (stripLead f) ++ ['/']).isPrefixOf (stripLead path))
      && !(stripLead path == stripTrail (stripLead f)) then
    stripTrail (stripLead f) ++ '/' :: stripLead path
  else stripLead path

/-- `ensurePathInFolder` (github.ts lines 146-165). -/
def ensurePathInFolder (path : Str) : Option Str → Str
  | none => path
  | some f => if f.isEmpty then path else ensureWithFolder path f

/-- The remote's observable behaviour for the branch allocator: creating
a branch reference (`POST /git/refs`) and deleting one
(`DELETE /git/refs/heads/...`), each returning success or an error
message. -/
structure RemoteModel where
  createBranch : Str → Except Str Unit
  deleteBranch : Str → Except Str Unit

/-- The collision marker matched by `error.message.includes('Reference
already exists')` (github.ts line 461). -/
def refExistsMsg : Str := "Reference already exists".data

/-- The error thrown when the attempt budget is exhausted on the last
attempt (github.ts lines 491-493). -/
def failAfterMsg (m : Nat) (lastErr : Str) : Str :=
  "Failed to create branch after ".data ++ (Nat.repr m).data
    ++ " attempts. Last error: ".data ++ lastErr

/-- The error after falling out of the attempt loop (github.ts line 503). -/
def exhaustMsg (m : Nat) : Str :=
  "Failed to create branch after ".data ++ (Nat.repr m).data ++ " attempts".data

/-- Last-attempt cleanup of `createBranchWithRetry` (github.ts lines
465-495): delete the conflicting branch, then try to create it once
more; any failure in this block raises the budget-exhausted error
carrying the original collision message.  The second component lists the
branch names submitted for creation inside this block. -/
def lastAttemptCleanup (remote : RemoteModel) (m : Nat) (name e : Str) :
    Except Str Str × List Str :=
  match remote.deleteBranch name with
  | .error _ => (.error (failAfterMsg m e), [])
  | .ok _ =>
    match remote.createBranch name with
    | .ok _ => (.ok name, [name])
    | .error _ => (.error (failAfterMsg m e), [name])

/-- The attempt loop of `createBranchWithRetry` (github.ts lines
449-501).  `gen attempt` stands for `generateBranchName(baseName,
attempt)` (whose timestamp and random suffix are environment inputs);
`rem` is the number of loop iterations left, `m - attempt` at every
call.  Besides the result, the function returns the list of branch names
submitted to the remote for creation, in order. -/
def createBranchGo (remote : RemoteModel) (gen : Nat → Str) (m : Nat) :
    Nat → Nat → Except Str Str × List Str
  | _, 0 => (.error (exhaustMsg m), [])
  | attempt, rem + 1 =>
    match remote.createBranch (gen attempt) with
    | .ok _ => (.ok (gen attempt), [gen attempt])
    | .error e =>
      if strIncludes e refExistsMsg then
        if attempt == m - 1 then
          match lastAttemptCleanup remote m (gen attempt) e with
          | (res, log) => (res, gen attempt :: log)
        else
          match createBranchGo remote gen m (attempt + 1) rem with
          | (res, log) => (res, gen attempt :: log)
      else (.error e, [gen attempt])

/-- `createBranchWithRetry` (github.ts lines 439-504) with its default
budget of `maxAttempts` attempts, starting at attempt 0. -/
def createBranchWithRetry (remote : RemoteModel) (gen : Nat → Str) (maxAttempts : Nat) :
    Except Str Str × List Str :=
  createBranchGo remote gen maxAttempts 0 maxAttempts

/-- Truthiness of an optional JS string: absent and empty are falsy. -/
def optTruthy : Option Str → Bool
  | none => false
  | some s => !s.isEmpty

/-- `GitHubCredentials` (github.ts lines 22-30), minus the token and
description which the path-resolution claims never touch. -/
structure GitHubCredentials where
  owner : Str
  repo : Str
  folder : Option Str
  specificFile : Option Str
  isFile : Bool
deriving DecidableEq, Repr

/-- The error thrown by the executors when no file can be resolved
(github.ts lines 1025-1027). -/
def noFileError (configName : Str) : Str :=
  "No file specified. Config \"".data ++ configName
    ++ "\" points to a folder, please specify file_path parameter.".data

/-- File-path resolution of `global_docs_get_file_content` (github.ts
lines 1012-1028): when the configuration points to a (truthy) specific
file it is used and any caller-supplied `file_path` is ignored;
otherwise a truthy caller path is run through `ensurePathInFolder`, and
everything else is an error. -/
def getFileContentPath (creds : GitHubCredentials) (configName : Str)
    (filePathArg : Option Str) : Except Str Str :=
  if creds.isFile && optTruthy creds.specificFile then
    .ok (creds.specificFile.getD [])
  else
    match filePathArg with
    | some p => if p.isEmpty then .error (noFileError configName)
                else .ok (ensurePathInFolder p creds.folder)
    | none => .error (noFileError configName)

/-- `args.branch || 'main'` (github.ts line 1010). -/
def branchOrMain : Option Str → Str
  | none => "main".data
  | some b => if b.isEmpty then "main".data else b

/-- The contents-API URL fetched by `global_docs_get_file_content`
(github.ts line 1031). -/
def getFileContentUrl (owner repo filePath branch : Str) : Str :=
  "https://api.github.com/repos/".data ++ owner ++ "/".data ++ repo
    ++ "/contents/".data ++ filePath ++ "?ref=".data ++ branch

/-- The request issued by `global_docs_get_file_content` after path
resolution: the URL it fetches, or the resolution error. -/
def getFileContentRequest (creds : GitHubCredentials) (configName : Str)
    (filePathArg : Option Str) (branchArg : Option Str) : Except Str Str :=
  match getFileContentPath creds configName filePathArg with
  | .error e => .error e
  | .ok fp => .ok (getFileContentUrl creds.owner creds.repo fp (branchOrMain branchArg))

/-- An HTTP response as observed by `fetchGitHubAPI`. -/
structure HttpResponse where
  ok : Bool
  status : Nat
  statusText : Str
  body : Str

/-- The error message raised by `fetchGitHubAPI` on a non-2xx response
(github.ts lines 361-366). -/
def githubApiError (resp : HttpResponse) : Str :=
  "GitHub API error: ".data ++ (Nat.repr resp.status).data ++ " ".data
    ++ resp.statusText ++ " - ".data ++ resp.body

/-- The payload fields of a contents-API file object that the
check-existence executors read. -/
structure FileInfo where
  html_url : Str
deriving DecidableEq

/-- `fetchGitHubAPI` (github.ts lines 352-369): a 2xx response yields the
parsed payload, anything else throws `githubApiError`. -/
def fetchGitHubAPIModel (resp : HttpResponse) (payload : FileInfo) : Except Str FileInfo :=
  if resp.ok then .ok payload else .error (githubApiError resp)

/-- One text block of a `ToolCallResult`. -/
structure TextContent where
  type : Str
  text : Str
deriving DecidableEq

/-- `ToolCallResult` (github.ts lines 15-20). -/
structure ToolCallResult where
  content : List TextContent
deriving DecidableEq

/-- Success text of `config_check_file_exists`
(configs github.ts lines 360-371; the `(size/1024).toFixed(1)` KB figure
is floating-point formatting and is elided from the size line). -/
def configExistsText (filePath : Str) (info : FileInfo) : Str :=
  "✅ File exists: ".data ++ filePath ++ "\n🔗 URL: ".data ++ info.html_url

/-- Not-found text of `config_check_file_exists`
(configs github.ts line 377). -/
def configNotExistText (filePath : Str) : Str :=
  "❌ File does not exist: ".data ++ filePath

/-- `config_check_file_exists` (configs github.ts lines 347-394): GET
the contents API; an error whose message contains `'404'` is reported as
a successful "does not exist" result; any other error is re-thrown
wrapped by the outer catch. -/
def config_check_file_exists (resp : HttpResponse) (payload : FileInfo)
    (filePath : Str) : Except Str ToolCallResult :=
  match fetchGitHubAPIModel resp payload with
  | .ok info => .ok ⟨[⟨"text".data, configExistsText filePath info⟩]⟩
  | .error e =>
    if strIncludes e "404".data then .ok ⟨[⟨"text".data, configNotExistText filePath⟩]⟩
    else .error ("Failed to check file existence: ".data ++ e)

/-- File-path resolution of `global_docs_check_file_exists` (github.ts
lines 918-934): a truthy configured `specificFile` wins; otherwise a
truthy caller path is run through `enforceFolderSecurity`. -/
def checkFileExistsPath (creds : GitHubCredentials) (configName : Str)
    (filePathArg : Option Str) : Except Str Str :=
  if creds.isFile && optTruthy creds.specificFile then
    .ok (creds.specificFile.getD [])
  else
    match filePathArg with
    | some p => if p.isEmpty then .error (noFileError configName)
                else enforceFolderSecurity p creds.folder
    | none => .error (noFileError configName)

/-- Not-found text of `global_docs_check_file_exists` (github.ts lines
960-964), including the auto-detection and folder-restriction notes. -/
def docsNotExistText (filePath : Str) (creds : GitHubCredentials) : Str :=
  "❌ File does not exist: ".data ++ filePath ++ "\n".data
    ++ (if creds.isFile then "🧠 Auto-detected from configuration\n".data else [])
    ++ (match creds.folder with
        | some f => "🔒 Folder Restriction: ".data ++ f
        | none => [])

/-- Success text of `global_docs_check_file_exists` (github.ts lines
946-951; the KB size figure is floating-point formatting and elided). -/
def docsExistsText (filePath : Str) (info : FileInfo) (creds : GitHubCredentials) : Str :=
  "✅ File exists: ".data ++ filePath ++ "\n🔗 URL: ".data ++ info.html_url ++ "\n".data
    ++ (if creds.isFile then "🧠 Auto-detected from configuration\n".data else [])
    ++ (match creds.folder with
        | some f => "🔒 Folder Restriction: ".data ++ f
        | none => [])

/-- Error text produced by the graceful outer catch of
`global_docs_check_file_exists` (github.ts lines 971-990). -/
def docsCheckErrorText (filePath : Str) (creds : GitHubCredentials) (e : Str) : Str :=
  "❌ Error checking file: ".data ++ filePath ++ "\n".data
    ++ (if creds.isFile then "🧠 Auto-detected from configuration\n".data else [])
    ++ (match creds.folder with
        | some f => "🔒 Folder Restriction: ".data ++ f ++ "\n".data
        | none => [])
    ++ "\n🔧 ".data ++ e

/-- `global_docs_check_file_exists` (github.ts lines 902-991): resolve
the file path (errors here are thrown before the try block), GET the
contents API; an error containing `'404'` becomes a successful "does not
exist" result; any other error is caught by the outer catch and rendered
as an error text result. -/
def global_docs_check_file_exists (creds : GitHubCredentials) (configName : Str)
    (filePathArg : Option Str) (resp : HttpResponse) (payload : FileInfo) :
    Except Str ToolCallResult :=
  match checkFileExistsPath creds configName filePathArg with
  | .error e => .error e
  | .ok fp =>
    match fetchGitHubAPIModel resp payload with
    | .ok info => .ok ⟨[⟨"text".data, docsExistsText fp info creds⟩]⟩
    | .error e =>
      if strIncludes e "404".data then .ok ⟨[⟨"text".data, docsNotExistText fp creds⟩]⟩
      else .ok ⟨[⟨"text".data, docsCheckErrorText fp creds e⟩]⟩

/-- UTF-8 encoding of a unicode scalar value, as performed by
`new TextEncoder().encode` (github.ts line 421). -/
def utf8EncodeChar (n : Nat) : List Nat :=
  if n < 128 then [n]
  else if n < 2048 then [192 + n / 64, 128 + n % 64]
  else if n < 65536 then [224 + n / 4096, 128 + (n / 64) % 64, 128 + n % 64]
  else [240 + n / 262144, 128 + (n / 4096) % 64, 128 + (n / 64) % 64, 128 + n % 64]

/-- The UTF-8 bytes of a string. -/
def utf8Bytes (s : Str) : List Nat := s.flatMap (fun c => utf8EncodeChar c.toNat)

/-- The base64 alphabet. -/
def b64Alphabet : Str :=
  "ABCDEFGHIJKLMNOPQRSTUVWXYZabcdefghijklmnopqrstuvwxyz0123456789+/".data

/-- The base64 digit for a 6-bit value. -/
def b64Char (n : Nat) : Char := b64Alphabet.getD n 'A'

/-- The 6-bit value of a base64 digit (`atob`'s alphabet lookup). -/
def b64Index (c : Char) : Nat := b64Alphabet.indexOf c

/-- `btoa` on a byte sequence: standard base64 with `=` padding. -/
def base64EncodeBytes : List Nat → Str
  | [] => []
  | [a] => [b64Char (a / 4), b64Char (a % 4 * 16), '=', '=']
  | [a, b] => [b64Char (a / 4), b64Char (a % 4 * 16 + b / 16), b64Char (b % 16 * 4), '=']
  | a :: b :: c :: rest =>
    b64Char (a / 4) :: b64Char (a % 4 * 16 + b / 16)
      :: b64Char (b % 16 * 4 + c / 64) :: b64Char (c % 64)
      :: base64EncodeBytes rest

/-- `atob`'s byte output: decode base64 quartets, honouring `=` padding. -/
def base64DecodeChars : Str → List Nat
  | a :: b :: c :: d :: rest =>
    if c = '=' then [b64Index a * 4 + b64Index b / 16]
    else if d = '=' then
      [b64Index a * 4 + b64Index b / 16, b64Index b % 16 * 16 + b64Index c / 4]
    else
      (b64Index a * 4 + b64Index b / 16)
        :: (b64Index b % 16 * 16 + b64Index c / 4)
        :: (b64Index c % 4 * 64 + b64Index d)
        :: base64DecodeChars rest
  | _ => []

/-- `encodeBase64` (github.ts lines 418-427): UTF-8 encode the string,
view the bytes as a binary string (`String.fromCharCode` per byte, a
byte-preserving step), and apply `btoa`. -/
def encodeBase64 (s : Str) : Str := base64EncodeBytes (utf8Bytes s)

/-- `atob(content)` as used by `global_docs_get_file_content`
(github.ts line 1051): base64-decode and return the bytes as characters,
with no UTF-8 decoding step. -/
def atobStr (s : Str) : Str := (base64DecodeChars s).map Char.ofNat

/-! ### Utility lemmas -/

theorem splitC_ne_nil (c : Char) (l : Str) : splitC c l ≠ [] := by
  induction l with
  | nil => simp [splitC]
  | cons a as ih =>
    simp only [splitC]
    cases h : splitC c as with
    | nil => simp
    | cons p ps =>
      by_cases hac : a = c <;> simp [hac]

theorem mem_splitC_not_mem (c : Char) (l : Str) : ∀ p ∈ splitC c l, c ∉ p := by
  induction l with
  | nil => simp [splitC]
  | cons a as ih =>
    simp only [splitC]
    cases h : splitC c as with
    | nil => simp
    | cons p ps =>
      intro q hq
      have hp : c ∉ p := ih p (by rw [h]; exact List.mem_cons_self _ _)
      have hps : ∀ r ∈ ps, c ∉ r := fun r hr =>
        ih r (by rw [h]; exact List.mem_cons_of_mem _ hr)
      by_cases hac : a = c
      · simp only [hac, if_true, List.mem_cons] at hq
        rcases hq with hq | hq | hq
        · simp [hq]
        · exact hq ▸ hp
        · exact hps q hq
      · simp only [hac, if_false, List.mem_cons] at hq
        rcases hq with hq | hq
        · subst hq
          intro hmem
          rcases List.mem_cons.mp hmem with h1 | h1
          · exact hac h1.symm
          · exact hp h1
        · exact hps q hq

theorem joinC_cons_cons (c : Char) (p q : Str) (ps : List Str) :
    joinC c (p :: q :: ps) = p ++ c :: joinC c (q :: ps) := rfl

theorem joinC_splitC (c : Char) (l : Str) : joinC c (splitC c l) = l := by
  induction l with
  | nil => simp [splitC, joinC]
  | cons a as ih =>
    simp only [splitC]
    cases h : splitC c as with
    | nil => exact absurd h (splitC_ne_nil c as)
    | cons p ps =>
      rw [h] at ih
      by_cases hac : a = c
      · simp only [hac, if_true, joinC_cons_cons, List.nil_append]
        rw [ih]
      · simp only [hac, if_false]
        cases ps with
        | nil =>
          simp only [joinC] at ih ⊢
          rw [ih]
        | cons q qs =>
          simp only [joinC_cons_cons, List.cons_append] at ih ⊢
          rw [← ih]

theorem joinC_append_single (c : Char) (L : List Str) (b : Str) (h : L ≠ []) :
    joinC c (L ++ [b]) = joinC c L ++ c :: b := by
  induction L with
  | nil => exact absurd rfl h
  | cons p ps ih =>
    cases ps with
    | nil => simp [joinC]
    | cons q qs =>
      have h2 : joinC c ((q :: qs) ++ [b]) = joinC c (q :: qs) ++ c :: b := ih (by simp)
      show p ++ c :: joinC c ((q :: qs) ++ [b]) = (p ++ c :: joinC c (q :: qs)) ++ c :: b
      rw [h2]
      simp

theorem dropWhile_head_false (p : Char → Bool) (l : Str) (a : Char) (t : Str)
    (h : l.dropWhile p = a :: t) : p a = false := by
  have := List.head?_dropWhile_not p l
  rw [h] at this
  simpa using this

theorem dropWhile_idem (p : Char → Bool) (l : Str) :
    (l.dropWhile p).dropWhile p = l.dropWhile p := by
  cases h : l.dropWhile p with
  | nil => rfl
  | cons a t =>
    simp [List.dropWhile_cons, dropWhile_head_false p l a t h]

theorem stripLead_idem (l : Str) : stripLead (stripLead l) = stripLead l :=
  dropWhile_idem isSlash l

theorem stripLead_head_not_slash (l : Str) (a : Char) (t : Str)
    (h : stripLead l = a :: t) : isSlash a = false :=
  dropWhile_head_false isSlash l a t h

theorem stripLead_cons_not_slash (a : Char) (t : Str) (h : isSlash a = false) :
    stripLead (a :: t) = a :: t := by
  simp [stripLead, List.dropWhile_cons, h]

theorem stripTrail_decompose (m : Str) :
    ∃ w, (∀ x ∈ w, isSlash x = true) ∧ m = stripTrail m ++ w := by
  refine ⟨(m.reverse.takeWhile isSlash).reverse, ?_, ?_⟩
  · intro x hx
    exact List.mem_takeWhile_imp (List.mem_reverse.mp hx)
  · rw [stripTrail, ← List.reverse_append, List.takeWhile_append_dropWhile,
      List.reverse_reverse]

theorem strIncludes_of_mid (l pat : Str) (h : pat <:+: l) :
    strIncludes l pat = true := by
  induction l with
  | nil =>
    rw [List.infix_nil] at h
    simp [h, strIncludes, List.isPrefixOf]
  | cons a t ih =>
    rw [strIncludes]
    rcases List.infix_cons_iff.mp h with h1 | h1
    · have h2 : pat.isPrefixOf (a :: t) = true := by
        simpa [ List.isPrefixOf_iff_prefix] using h1
      simp [h2]
    · simp [ih h1]

theorem finalizeWith_ok (ow rep : Str) (t : Option Str × Option Str × Bool)
    (r : RepoPathDescriptor) (h : finalizeWith ow rep t = .ok r) :
    r = ⟨ow, rep, t.1, t.2.1, t.2.2⟩ := by
  unfold finalizeWith finalizeDescriptor at h
  split at h
  · cases h
  · split at h
    · cases h
    · split at h
      · cases h
      · exact (Except.ok.inj h).symm

theorem classifyPath_spec (L : List Str) (fp : Str)
    (hL : ∀ p ∈ L, '/' ∉ p) (hjoin : joinC '/' L = fp) :
    ((classifyPath L fp).2.2 = true ↔ (classifyPath L fp).2.1 ≠ none) ∧
    (∀ f, (classifyPath L fp).1 = some f → (classifyPath L fp).2.2 = true →
      ∃ sf b, (classifyPath L fp).2.1 = some sf ∧ sf = f ++ '/' :: b ∧ '/' ∉ b) := by
  by_cases hext : hasFileExt fp
  · simp only [classifyPath, hext, if_true]
    refine ⟨by simp, ?_⟩
    intro f hf _
    split at hf
    · -- more than one segment: the folder is all but the last segment
      rename_i hlen
      have hne : L ≠ [] := by
        intro hnil
        rw [hnil] at hlen
        simp at hlen
      have hdne : L.dropLast ≠ [] := by
        intro hnil
        have := List.length_dropLast L
        rw [hnil] at this
        simp at this
        omega
      refine ⟨fp, L.getLast hne, rfl, ?_, ?_⟩
      · have hdecomp := List.dropLast_append_getLast hne
        have := joinC_append_single '/' L.dropLast (L.getLast hne) hdne
        rw [hdecomp] at this
        rw [← hjoin, this, ← Option.some.inj hf]
      · exact hL _ (List.getLast_mem hne)
    · cases hf
  · simp only [classifyPath, hext, if_false]
    constructor
    · simp
    · intro f _ hfile
      cases hfile

theorem treeWithOwner_inv (ow rep : Str) (bfParts : List Str) (r : RepoPathDescriptor)
    (h : treeWithOwner ow rep bfParts = .ok r) :
    (r.isFile = true ↔ r.specificFile ≠ none) ∧
    (∀ f, r.isFile = true → r.folder = some f →
      ∃ sf b, r.specificFile = some sf ∧ sf = f ++ '/' :: b ∧ '/' ∉ b) := by
  unfold treeWithOwner at h
  split at h
  · have hr := finalizeWith_ok _ _ _ _ h
    have hspec := classifyPath_spec (splitC '/' (joinC '/' (bfParts.drop 1)))
      (joinC '/' (bfParts.drop 1)) (mem_splitC_not_mem _ _) (joinC_splitC _ _)
    rw [hr]
    exact ⟨hspec.1, fun f hfile hf => hspec.2 f hf hfile⟩
  · have hr := finalizeWith_ok _ _ _ _ h
    rw [hr]
    exact ⟨by simp, fun f hfile _ => by cases hfile⟩

theorem plainWithParts_inv (ow rep : Str) (rest : List Str)
    (hrest : ∀ p ∈ rest, '/' ∉ p) (r : RepoPathDescriptor)
    (h : plainWithParts ow rep rest = .ok r) :
    (r.isFile = true ↔ r.specificFile ≠ none) ∧
    (∀ f, r.isFile = true → r.folder = some f →
      ∃ sf b, r.specificFile = some sf ∧ sf = f ++ '/' :: b ∧ '/' ∉ b) := by
  unfold plainWithParts at h
  split at h
  · have hr := finalizeWith_ok _ _ _ _ h
    rw [hr]
    exact ⟨by simp, fun f hfile _ => by cases hfile⟩
  · have hr := finalizeWith_ok _ _ _ _ h
    have hspec := classifyPath_spec rest (joinC '/' rest) hrest rfl
    rw [hr]
    exact ⟨hspec.1, fun f hfile hf => hspec.2 f hf hfile⟩

/-! ### Claims -/

/-- C2: for every repository path string on which `parseGitHubRepoPath`
succeeds, the returned descriptor satisfies: `isFile` is true iff
`specificFile` is set, and whenever `isFile` is true and `folder` is
present, `folder` is the parent directory of `specificFile` (the file
path is the folder, a slash, and a slash-free final segment). -/
theorem c2_descriptor_invariants (s : Str) (r : RepoPathDescriptor)
    (h : parseGitHubRepoPath s = .ok r) :
    (r.isFile = true ↔ r.specificFile ≠ none) ∧
    (∀ f, r.isFile = true → r.folder = some f →
      ∃ sf b, r.specificFile = some sf ∧ sf = f ++ '/' :: b ∧ '/' ∉ b) := by
  unfold parseGitHubRepoPath at h
  split at h
  · cases h
  · unfold parseCleaned at h
    split at h
    · -- tree-URL branch
      split at h
      · unfold parseTreePart at h
        split at h
        · cases h
        · exact treeWithOwner_inv _ _ _ _ h
      · cases h
    · -- plain-path branch
      unfold parsePlainPart at h
      split at h
      · cases h
      · exact plainWithParts_inv _ _ _
          (fun p hp => mem_splitC_not_mem '/' _ p (List.mem_of_mem_drop hp)) _ h

/-- C1: parsing the plain path `"owner/repo/a/b/file.json"` yields
owner/repo with folder `"a/b"`, specific file `"a/b/file.json"` and
`isFile = true`; and in general, for every plain path (no `/tree/`)
whose extracted sub-path ends in a file extension, a successful parse
returns the full sub-path as `specificFile`, `isFile = true`, and all
but the last segment as `folder` exactly when the sub-path has more than
one segment. -/
theorem c1_plain_file_path :
    parseGitHubRepoPath "owner/repo/a/b/file.json".data =
      .ok ⟨"owner".data, "repo".data, some "a/b".data, some "a/b/file.json".data, true⟩ ∧
    ∀ (s : Str) (r : RepoPathDescriptor) (ow rep : Str) (rest : List Str),
      parseGitHubRepoPath s = .ok r →
      (splitOnSep treeSep (cleanRepoPath s)).length = 1 →
      splitC '/' (cleanRepoPath s) = ow :: rep :: rest →
      rest ≠ [] →
      hasFileExt (joinC '/' rest) = true →
      r.specificFile = some (joinC '/' rest) ∧ r.isFile = true ∧
        r.folder = if rest.length > 1 then some (joinC '/' rest.dropLast) else none := by
  refine ⟨by rfl, ?_⟩
  intro s r ow rep rest h hplain hsplit hrest hext
  unfold parseGitHubRepoPath at h
  split at h
  · cases h
  · unfold parseCleaned at h
    rw [if_neg (by rw [hplain]; omega)] at h
    unfold parsePlainPart at h
    rw [hsplit] at h
    rw [if_neg (by simp)] at h
    unfold plainWithParts at h
    simp only [List.getD_cons_zero, List.getD_cons_succ, List.drop_succ_cons,
      List.drop_zero] at h
    rw [if_neg (by simpa using hrest)] at h
    have hr := finalizeWith_ok _ _ _ _ h
    rw [hr]
    simp [classifyPath, hext]

/-- C7: parsing `"https://github.com/owner/repo/tree/main/a/b"` yields
owner/repo with folder `"a/b"` and `isFile = false`; and for every
`/tree/` URL whose portion after `/tree/` consists of a single segment
(just the branch name), a successful parse returns `folder = none`. -/
theorem c7_tree_url :
    parseGitHubRepoPath "https://github.com/owner/repo/tree/main/a/b".data =
      .ok ⟨"owner".data, "repo".data, some "a/b".data, none, false⟩ ∧
    ∀ (s : Str) (r : RepoPathDescriptor) (rp bf : Str),
      parseGitHubRepoPath s = .ok r →
      splitOnSep treeSep (cleanRepoPath s) = [rp, bf] →
      (splitC '/' bf).length = 1 →
      r.folder = none := by
  refine ⟨by rfl, ?_⟩
  intro s r rp bf h htree hbf
  unfold parseGitHubRepoPath at h
  split at h
  · cases h
  · unfold parseCleaned at h
    rw [htree] at h
    rw [if_pos (by simp), if_pos (by simp)] at h
    unfold parseTreePart at h
    simp only [List.getD_cons_zero, List.getD_cons_succ] at h
    split at h
    · cases h
    · unfold treeWithOwner at h
      rw [if_neg (by rw [hbf]; omega)] at h
      have hr := finalizeWith_ok _ _ _ _ h
      rw [hr]

/-- Witness for C1 at the concrete input `"o/r/d/f.md"`. -/
theorem c1_plain_file_path_witness :
    ∃ r : RepoPathDescriptor, parseGitHubRepoPath "o/r/d/f.md".data = .ok r ∧
      r.specificFile = some (joinC '/' ["d".data, "f.md".data]) ∧ r.isFile = true ∧
      r.folder = (if (["d".data, "f.md".data] : List Str).length > 1
        then some (joinC '/' (["d".data, "f.md".data] : List Str).dropLast) else none) := by
  refine ⟨⟨"o".data, "r".data, some "d".data, some "d/f.md".data, true⟩, by rfl, ?_⟩
  exact c1_plain_file_path.2 "o/r/d/f.md".data _ "o".data "r".data
    ["d".data, "f.md".data] (by rfl) (by rfl) (by rfl) (by decide) (by rfl)

/-- Witness for C2 at the concrete input `"o/r/d/f.md"`. -/
theorem c2_descriptor_invariants_witness :
    ∃ r : RepoPathDescriptor, parseGitHubRepoPath "o/r/d/f.md".data = .ok r ∧
      ((r.isFile = true ↔ r.specificFile ≠ none) ∧
       (∀ f, r.isFile = true → r.folder = some f →
         ∃ sf b, r.specificFile = some sf ∧ sf = f ++ '/' :: b ∧ '/' ∉ b)) := by
  refine ⟨⟨"o".data, "r".data, some "d".data, some "d/f.md".data, true⟩, by rfl, ?_⟩
  exact c2_descriptor_invariants "o/r/d/f.md".data _ (by rfl)

/-- Witness for C7 at the concrete input `"owner/repo/tree/main"`. -/
theorem c7_tree_url_witness :
    ∃ r : RepoPathDescriptor, parseGitHubRepoPath "owner/repo/tree/main".data = .ok r ∧
      r.folder = none := by
  refine ⟨⟨"owner".data, "repo".data, none, none, false⟩, by rfl, ?_⟩
  exact c7_tree_url.2 "owner/repo/tree/main".data _ "owner/repo".data "main".data
    (by rfl) (by rfl) (by rfl)

/-- The Folder Guard acceptance condition as the spec words it: after
stripping outer slashes from both, the candidate equals the folder or
starts with the folder followed by a slash.  Stated from the spec, for
comparison with `validatePath` and `enforceFolderSecurity`. -/
def folderAcceptSpec (path f : Str) : Bool :=
  (stripTrail (stripLead f) ++ ['/']).isPrefixOf (stripTrail (stripLead path))
    || stripTrail (stripLead path) == stripTrail (stripLead f)

/-- C3: for a configured (non-empty) folder, `enforceFolderSecurity`
accepts a candidate path exactly when, after stripping outer slashes
from both, the candidate equals the folder or starts with
`folder + "/"`, returning the path unchanged; otherwise it fails with an
access-denied error that contains both the path and the folder.  The
two concrete Folder Guard examples are included. -/
theorem c3_enforce_folder_security (path f : Str) (hf : f ≠ []) :
    (folderAcceptSpec path f = true →
      enforceFolderSecurity path (some f) = .ok path) ∧
    (folderAcceptSpec path f = false →
      ∃ m, enforceFolderSecurity path (some f) = .error m ∧ path <:+: m ∧ f <:+: m) ∧
    enforceFolderSecurity "docs/readme.md".data (some "docs".data) =
      .ok "docs/readme.md".data ∧
    (enforceFolderSecurity "other/readme.md".data (some "docs".data)).isOk = false := by
  have hfe : f.isEmpty = false := by
    cases f with
    | nil => exact absurd rfl hf
    | cons a t => rfl
  have hval : validatePath path (some f) = folderAcceptSpec path f := by
    simp only [validatePath, hfe, Bool.false_eq_true, if_false]
    rfl
  refine ⟨?_, ?_, by rfl, by rfl⟩
  · intro hacc
    simp only [enforceFolderSecurity, hfe, Bool.false_eq_true, if_false, hval, hacc,
      if_true]
  · intro hacc
    simp only [enforceFolderSecurity, hfe, Bool.false_eq_true, if_false, hval, hacc]
    refine ⟨_, rfl, ?_, ?_⟩
    · exact ⟨"Access denied: Path \"".data,
        "\" is outside the allowed folder \"".data ++ f ++ "\"".data, by simp⟩
    · exact ⟨"Access denied: Path \"".data ++ path
        ++ "\" is outside the allowed folder \"".data, "\"".data, by simp⟩

/-- Witness for C3 at the concrete path `"docs/a.md"` and folder `"docs"`. -/
theorem c3_enforce_folder_security_witness :
    (folderAcceptSpec "docs/a.md".data "docs".data = true →
      enforceFolderSecurity "docs/a.md".data (some "docs".data) = .ok "docs/a.md".data) ∧
    (folderAcceptSpec "docs/a.md".data "docs".data = false →
      ∃ m, enforceFolderSecurity "docs/a.md".data (some "docs".data) = .error m ∧
        "docs/a.md".data <:+: m ∧ "docs".data <:+: m) ∧
    enforceFolderSecurity "docs/readme.md".data (some "docs".data) =
      .ok "docs/readme.md".data ∧
    (enforceFolderSecurity "other/readme.md".data (some "docs".data)).isOk = false :=
  c3_enforce_folder_security "docs/a.md".data "docs".data (by decide)

theorem normFolder_head (f : Str) :
    stripTrail (stripLead f) = [] ∨
    ∃ a t, stripTrail (stripLead f) = a :: t ∧ isSlash a = false := by
  cases hnf : stripTrail (stripLead f) with
  | nil => exact Or.inl rfl
  | cons a t =>
    refine Or.inr ⟨a, t, rfl, ?_⟩
    obtain ⟨w, hw, hdec⟩ := stripTrail_decompose (stripLead f)
    rw [hnf] at hdec
    cases hsl : stripLead f with
    | nil => rw [hsl] at hdec; simp at hdec
    | cons b u =>
      have hb := stripLead_head_not_slash f b u hsl
      rw [hsl] at hdec
      have hba : b = a := by
        have := congrArg List.head? hdec
        simpa using this
      rw [← hba]
      exact hb

theorem ensureWithFolder_idem (p f : Str) :
    ensureWithFolder (ensureWithFolder p f) f = ensureWithFolder p f := by
  by_cases hin : (!((stripTrail (stripLead f) ++ ['/']).isPrefixOf (stripLead p))
      && !(stripLead p == stripTrail (stripLead f))) = true
  · have h1 : ensureWithFolder p f = stripTrail (stripLead f) ++ '/' :: stripLead p := by
      unfold ensureWithFolder
      rw [if_pos hin]
    rw [h1]
    rcases normFolder_head f with hnf | ⟨a, t, hnf, ha⟩
    · -- the normalised folder is empty: the rewritten path is '/' :: np
      unfold ensureWithFolder
      rw [hnf]
      simp only [List.nil_append]
      have hp1 : stripLead ('/' :: stripLead p) = stripLead p := by
        have hsl : isSlash '/' = true := by decide
        calc stripLead ('/' :: stripLead p)
            = stripLead (stripLead p) := by simp [stripLead, List.dropWhile_cons, hsl]
          _ = stripLead p := stripLead_idem p
      rw [hp1]
      have hne : stripLead p ≠ [] := by
        intro hnil
        rw [hnf, hnil] at hin
        simp at hin
      have hcond : (!(([] ++ ['/'] : Str).isPrefixOf (stripLead p))
          && !(stripLead p == ([] : Str))) = true := by
        cases hsp : stripLead p with
        | nil => exact absurd hsp hne
        | cons b u =>
          have hb := stripLead_head_not_slash p b u hsp
          have hsb : ('/' == b) = false := by
            rw [beq_eq_false_iff_ne]
            intro hcon
            rw [← hcon] at hb
            simp [isSlash] at hb
          simp only [Bool.and_eq_true, Bool.not_eq_eq_eq_not, Bool.not_true,
            List.nil_append, hsp]
          constructor
          · simp [List.isPrefixOf, hsb]
          · rfl
      simp only [List.nil_append] at hcond
      rw [if_pos hcond]
    · -- the normalised folder starts with a non-slash character
      unfold ensureWithFolder
      rw [hnf]
      have hl : stripLead (a :: t ++ '/' :: stripLead p) = a :: t ++ '/' :: stripLead p := by
        rw [List.cons_append]
        exact stripLead_cons_not_slash a (t ++ '/' :: stripLead p) ha
      rw [hl]
      have hcond : ¬((!((a :: t ++ ['/']).isPrefixOf (a :: t ++ '/' :: stripLead p))
          && !((a :: t ++ '/' :: stripLead p : Str) == a :: t)) = true) := by
        intro hcon
        simp only [Bool.and_eq_true, Bool.not_eq_eq_eq_not, Bool.not_true] at hcon
        have hpre : ((a :: t) ++ ['/']).isPrefixOf (a :: t ++ '/' :: stripLead p) = true := by
          rw [ List.isPrefixOf_iff_prefix]
          exact ⟨stripLead p, by simp⟩
        rw [hpre] at hcon
        exact absurd hcon.1 (by simp)
      rw [if_neg hcond]
  · have h1 : ensureWithFolder p f = stripLead p := by
      unfold ensureWithFolder
      rw [if_neg hin]
    rw [h1]
    unfold ensureWithFolder
    rw [stripLead_idem]
    rw [if_neg hin]

/-- C9: `ensurePathInFolder("readme.md", "docs")` returns
`"docs/readme.md"`, `ensurePathInFolder("docs/readme.md", "docs")`
returns it unchanged, and the rewrite is idempotent for every path and
folder. -/
theorem c9_ensure_path_idempotent :
    ensurePathInFolder "readme.md".data (some "docs".data) = "docs/readme.md".data ∧
    ensurePathInFolder "docs/readme.md".data (some "docs".data) = "docs/readme.md".data ∧
    ∀ (p : Str) (f : Option Str),
      ensurePathInFolder (ensurePathInFolder p f) f = ensurePathInFolder p f := by
  refine ⟨by rfl, by rfl, ?_⟩
  intro p f
  match f with
  | none => rfl
  | some f =>
    by_cases hfe : f.isEmpty
    · simp [ensurePathInFolder, hfe]
    · simp only [ensurePathInFolder, hfe, Bool.false_eq_true, if_false]
      exact ensureWithFolder_idem p f

/-- C4 counterexample: the claim "for every folder `f` and every
non-empty suffix `s`, `enforceFolderSecurity(f + "/" + s, f)` succeeds
and returns its argument unchanged" fails at the all-slash folder
`f = "/"` with `s = "x"`: the normalised folder is empty but `"/"` is
truthy, so the guard rejects `"//x"`. -/
theorem c4_counterexample :
    ¬(enforceFolderSecurity ("/".data ++ '/' :: "x".data) (some "/".data) =
      .ok ("/".data ++ '/' :: "x".data)) ∧ ("x".data : Str) ≠ [] := by
  constructor
  · decide
  · decide

/-- C4 (amended): the folder guard's acceptance is a pure string-prefix
test with no path-segment canonicalisation: for every folder `f` that is
empty or contains a non-slash character, and every non-empty suffix `s`
(including suffixes containing `".."` segments),
`enforceFolderSecurity(f + "/" + s, f)` succeeds and returns its
argument unchanged. -/
theorem c4_guard_pure_prefix_test (f s : Str) (hs : s ≠ [])
    (hf : f = [] ∨ stripLead f ≠ []) :
    enforceFolderSecurity (f ++ '/' :: s) (some f) = .ok (f ++ '/' :: s) := by
  rcases hf with hf | hf
  · subst hf
    rfl
  · cases hlf : stripLead f with
    | nil => exact absurd hlf hf
    | cons c g =>
    have hc := stripLead_head_not_slash f c g hlf
    have hfne : f ≠ [] := by
      intro hnil
      subst hnil
      simp [stripLead] at hlf
    have hfe : f.isEmpty = false := by
      cases f with
      | nil => exact absurd rfl hfne
      | cons a t => rfl
    have h1 : stripLead (f ++ '/' :: s) = c :: g ++ '/' :: s := by
      show (f ++ '/' :: s).dropWhile isSlash = _
      rw [List.dropWhile_append]
      rw [show f.dropWhile isSlash = c :: g from hlf]
      simp
    have hrev : (c :: g ++ '/' :: s).reverse = s.reverse ++ (['/'] ++ (c :: g).reverse) := by
      simp
    have hval : validatePath (f ++ '/' :: s) (some f) = true := by
      simp only [validatePath, hfe, Bool.false_eq_true, if_false]
      unfold validateWithFolder
      rw [h1, hlf]
      by_cases hds : s.reverse.dropWhile isSlash = []
      · -- the suffix is all slashes: the normalised path equals the folder
        have hnp : stripTrail (c :: g ++ '/' :: s) = stripTrail (c :: g) := by
          unfold stripTrail
          rw [hrev, ← List.append_assoc]
          rw [List.dropWhile_append_of_pos ?_]
          intro x hx
          rcases List.mem_append.mp hx with hx | hx
          · exact List.dropWhile_eq_nil_iff.mp hds x hx
          · simp at hx
            subst hx
            decide
        rw [hnp]
        simp
      · -- the suffix has a non-slash character: the path starts with folder + "/"
        have hnp : stripTrail (c :: g ++ '/' :: s) =
            c :: g ++ '/' :: (s.reverse.dropWhile isSlash).reverse := by
          unfold stripTrail
          rw [hrev, List.dropWhile_append]
          rw [if_neg (by simpa using hds)]
          simp
        rw [hnp]
        obtain ⟨w, hw, hdecomp⟩ := stripTrail_decompose (c :: g)
        set nf := stripTrail (c :: g) with hnfdef
        rw [show (c :: g : Str) = nf ++ w from hdecomp]
        have hpre : (nf ++ ['/']).isPrefixOf
            ((nf ++ w) ++ '/' :: (s.reverse.dropWhile isSlash).reverse) = true := by
          rw [ List.isPrefixOf_iff_prefix]
          cases w with
          | nil => exact ⟨(s.reverse.dropWhile isSlash).reverse, by simp⟩
          | cons x w2 =>
            have hx : x = '/' := by
              have := hw x (List.mem_cons_self x w2)
              simpa [isSlash] using this
            subst hx
            exact ⟨w2 ++ '/' :: (s.reverse.dropWhile isSlash).reverse, by simp⟩
        rw [hpre]
        simp
    simp only [enforceFolderSecurity, hfe, Bool.false_eq_true, if_false, hval, if_true]

/-- Witness for C4 at folder `"docs"` and suffix `"../secrets/x.txt"`,
a suffix with a `".."` segment. -/
theorem c4_guard_pure_prefix_test_witness :
    enforceFolderSecurity ("docs".data ++ '/' :: "../secrets/x.txt".data)
      (some "docs".data) = .ok ("docs".data ++ '/' :: "../secrets/x.txt".data) :=
  c4_guard_pure_prefix_test "docs".data "../secrets/x.txt".data (by decide)
    (Or.inr (by decide))

theorem createBranchGo_collides (remote : RemoteModel) (gen : Nat → Str) (m : Nat)
    (hcol : ∀ nm, ∃ e, remote.createBranch nm = .error e ∧
      strIncludes e refExistsMsg = true) :
    ∀ rem attempt, attempt + rem = m → 0 < rem →
      (∃ e, (createBranchGo remote gen m attempt rem).1 = .error e ∧
        "Failed to create branch after ".data <+: e) ∧
      ((createBranchGo remote gen m attempt rem).2).toFinset =
        ((List.range' attempt rem).map gen).toFinset := by
  intro rem
  induction rem with
  | zero =>
    intro attempt _ h0
    exact absurd h0 (by omega)
  | succ r ih =>
    intro attempt hsum hpos
    obtain ⟨e, hce, hinc⟩ := hcol (gen attempt)
    simp only [createBranchGo, hce]
    rw [if_pos hinc]
    cases r with
    | zero =>
      -- last attempt: collision, then delete-and-recreate cleanup
      have hlast : (attempt == m - 1) = true := by
        rw [beq_iff_eq]
        omega
      rw [if_pos hlast]
      unfold lastAttemptCleanup
      cases hdel : remote.deleteBranch (gen attempt) with
      | error d =>
        refine ⟨⟨failAfterMsg m e, rfl, ?_⟩, by simp [List.range']⟩
        exact ⟨(Nat.repr m).data ++ (" attempts. Last error: ".data ++ e),
          by simp [failAfterMsg, List.append_assoc]⟩
      | ok u =>
        obtain ⟨e2, hce2, _⟩ := hcol (gen attempt)
        rw [hce2]
        refine ⟨⟨failAfterMsg m e, rfl, ?_⟩, by simp [List.range']⟩
        exact ⟨(Nat.repr m).data ++ (" attempts. Last error: ".data ++ e),
          by simp [failAfterMsg, List.append_assoc]⟩
    | succ r2 =>
      -- not the last attempt: retry with the next generated name
      have hlast : ¬((attempt == m - 1) = true) := by
        rw [beq_iff_eq]
        omega
      rw [if_neg hlast]
      have hrec := ih (attempt + 1) (by omega) (by omega)
      constructor
      · obtain ⟨e2, he2, hp2⟩ := hrec.1
        refine ⟨e2, ?_, hp2⟩
        show (createBranchGo remote gen m (attempt + 1) (r2 + 1)).1 = Except.error e2
        exact he2
      · show (gen attempt :: (createBranchGo remote gen m (attempt + 1) (r2 + 1)).2).toFinset
          = ((List.range' attempt (r2 + 1 + 1)).map gen).toFinset
        rw [List.toFinset_cons, hrec.2]
        have hr : List.range' attempt (r2 + 1 + 1) = attempt :: List.range' (attempt + 1) (r2 + 1) :=
          List.range'_succ _ _ _
        rw [hr, List.map_cons, List.toFinset_cons]

/-- C5: if every branch-creation request collides ("Reference already
exists"), `createBranchWithRetry` fails with a branch-allocation-failed
error after exactly the configured attempt budget, and the set of branch
names submitted to the remote is exactly the budget-many generated
names, hence at most that many distinct names. -/
theorem c5_branch_allocator (remote : RemoteModel) (gen : Nat → Str) (m : Nat)
    (hm : 0 < m)
    (hcol : ∀ nm, ∃ e, remote.createBranch nm = .error e ∧
      strIncludes e refExistsMsg = true) :
    (∃ e, (createBranchWithRetry remote gen m).1 = .error e ∧
      "Failed to create branch after ".data <+: e) ∧
    ((createBranchWithRetry remote gen m).2).toFinset =
      ((List.range m).map gen).toFinset ∧
    ((createBranchWithRetry remote gen m).2).toFinset.card ≤ m := by
  have h := createBranchGo_collides remote gen m hcol m 0 (by omega) hm
  unfold createBranchWithRetry
  refine ⟨h.1, ?_, ?_⟩
  · rw [List.range_eq_range']
    exact h.2
  · calc ((createBranchGo remote gen m 0 m).2).toFinset.card
        = ((List.range' 0 m).map gen).toFinset.card := by rw [h.2]
      _ ≤ ((List.range' 0 m).map gen).length := List.toFinset_card_le _
      _ = m := by simp

/-- Witness for C5: a remote on which every creation collides, with the
default budget of 3 attempts. -/
theorem c5_branch_allocator_witness :
    (∃ e, (createBranchWithRetry
        ⟨fun _ => .error refExistsMsg, fun _ => .ok ()⟩
        (fun i => 'b' :: (Nat.repr i).data) 3).1 = .error e ∧
      "Failed to create branch after ".data <+: e) ∧
    ((createBranchWithRetry ⟨fun _ => .error refExistsMsg, fun _ => .ok ()⟩
        (fun i => 'b' :: (Nat.repr i).data) 3).2).toFinset =
      ((List.range 3).map (fun i => 'b' :: (Nat.repr i).data)).toFinset ∧
    ((createBranchWithRetry ⟨fun _ => .error refExistsMsg, fun _ => .ok ()⟩
        (fun i => 'b' :: (Nat.repr i).data) 3).2).toFinset.card ≤ 3 :=
  c5_branch_allocator ⟨fun _ => .error refExistsMsg, fun _ => .ok ()⟩
    (fun i => 'b' :: (Nat.repr i).data) 3 (by decide)
    (fun nm => ⟨refExistsMsg, rfl, by decide⟩)

/-- C6: for every configuration whose resolved descriptor has
`isFile = true` and a (truthy) `specificFile`, the get-file-content
executor fetches `specificFile` — for every caller-supplied `file_path`
argument the request is the contents URL of `specificFile`, identical to
the request with no `file_path` at all. -/
theorem c6_get_file_content_ignores_path (creds : GitHubCredentials)
    (configName sf : Str) (hisf : creds.isFile = true)
    (hsf : creds.specificFile = some sf) (hne : sf ≠ []) :
    ∀ (filePathArg branchArg : Option Str),
      getFileContentRequest creds configName filePathArg branchArg =
        .ok (getFileContentUrl creds.owner creds.repo sf (branchOrMain branchArg)) ∧
      getFileContentRequest creds configName filePathArg branchArg =
        getFileContentRequest creds configName none branchArg := by
  have hie : sf.isEmpty = false := by
    cases sf with
    | nil => exact absurd rfl hne
    | cons a t => rfl
  have hres : ∀ fpa, getFileContentPath creds configName fpa = .ok sf := by
    intro fpa
    unfold getFileContentPath
    rw [if_pos ?_]
    · rw [hsf]
      rfl
    · rw [hisf, hsf]
      simp [optTruthy, hie]
  intro fp br
  constructor
  · unfold getFileContentRequest
    rw [hres fp]
  · unfold getFileContentRequest
    rw [hres fp, hres none]

/-- Witness for C6: a single-file configuration ignores the caller's
`file_path`. -/
theorem c6_get_file_content_ignores_path_witness :
    getFileContentRequest ⟨"o".data, "r".data, some "docs".data,
        some "docs/app.md".data, true⟩ "app".data (some "evil.md".data) none =
      .ok (getFileContentUrl "o".data "r".data "docs/app.md".data
        (branchOrMain none)) ∧
    getFileContentRequest ⟨"o".data, "r".data, some "docs".data,
        some "docs/app.md".data, true⟩ "app".data (some "evil.md".data) none =
      getFileContentRequest ⟨"o".data, "r".data, some "docs".data,
        some "docs/app.md".data, true⟩ "app".data none none :=
  c6_get_file_content_ignores_path
    ⟨"o".data, "r".data, some "docs".data, some "docs/app.md".data, true⟩
    "app".data "docs/app.md".data rfl rfl (by decide)
    (some "evil.md".data) none

/-- A 404 response's error message contains the substring "404". -/
theorem githubApiError_404_includes (st sb : Str) :
    strIncludes (githubApiError ⟨false, 404, st, sb⟩) "404".data = true := by
  apply strIncludes_of_mid
  refine ⟨"GitHub API error: ".data, " ".data ++ st ++ " - ".data ++ sb, ?_⟩
  unfold githubApiError
  rw [show (Nat.repr 404).data = "404".data from by decide]
  simp

/-- C8 counterexample: the claim "any other remote failure propagates as
an error" fails for a non-404 failure whose error text happens to
contain the substring `"404"`: the executor reports success ("does not
exist") instead of an error. -/
theorem c8_counterexample :
    (config_check_file_exists
      ⟨false, 500, "Server Error".data, "upstream saw 404".data⟩
      ⟨[]⟩ "x.json".data).isOk = true ∧ (500 : Nat) ≠ 404 := by
  constructor
  · decide
  · decide

/-- C8 (amended): a remote response with HTTP status 404 yields a
successful "does not exist" text result rather than an error (in both
the configs and the docs check-existence executors), and any other
remote failure whose rendered error message does not contain the
substring `"404"` propagates as an error in the configs executor (the
docs executor renders it as an error text result instead). -/
theorem c8_check_exists_404 :
    (∀ (st sb : Str) (payload : FileInfo) (fp : Str),
      config_check_file_exists ⟨false, 404, st, sb⟩ payload fp =
        .ok ⟨[⟨"text".data, configNotExistText fp⟩]⟩) ∧
    (∀ (st sb : Str) (payload : FileInfo) (creds : GitHubCredentials)
        (cn : Str) (fpArg : Option Str) (fp : Str),
      checkFileExistsPath creds cn fpArg = .ok fp →
      global_docs_check_file_exists creds cn fpArg ⟨false, 404, st, sb⟩ payload =
        .ok ⟨[⟨"text".data, docsNotExistText fp creds⟩]⟩) ∧
    (∀ (resp : HttpResponse) (payload : FileInfo) (fp : Str),
      resp.ok = false → strIncludes (githubApiError resp) "404".data = false →
      config_check_file_exists resp payload fp =
        .error ("Failed to check file existence: ".data ++ githubApiError resp)) := by
  refine ⟨?_, ?_, ?_⟩
  · intro st sb payload fp
    simp [config_check_file_exists, fetchGitHubAPIModel,
      githubApiError_404_includes st sb]
  · intro st sb payload creds cn fpArg fp hres
    simp [global_docs_check_file_exists, hres, fetchGitHubAPIModel,
      githubApiError_404_includes st sb]
  · intro resp payload fp hok hinc
    simp [config_check_file_exists, fetchGitHubAPIModel, hok, hinc]

/-- Witness for C8 at concrete responses: a 404 in both executors, and a
plain 500 in the configs executor. -/
theorem c8_check_exists_404_witness :
    config_check_file_exists ⟨false, 404, "Not Found".data, "nf".data⟩ ⟨[]⟩
      "x.json".data = .ok ⟨[⟨"text".data, configNotExistText "x.json".data⟩]⟩ ∧
    global_docs_check_file_exists
      ⟨"o".data, "r".data, some "docs".data, some "docs/app.md".data, true⟩
      "app".data none ⟨false, 404, "Not Found".data, "nf".data⟩ ⟨[]⟩ =
      .ok ⟨[⟨"text".data, docsNotExistText "docs/app.md".data
        ⟨"o".data, "r".data, some "docs".data, some "docs/app.md".data, true⟩⟩]⟩ ∧
    config_check_file_exists ⟨false, 500, "Server Error".data, "boom".data⟩ ⟨[]⟩
      "x.json".data = .error ("Failed to check file existence: ".data
        ++ githubApiError ⟨false, 500, "Server Error".data, "boom".data⟩) :=
  ⟨c8_check_exists_404.1 "Not Found".data "nf".data ⟨[]⟩ "x.json".data,
   c8_check_exists_404.2.1 "Not Found".data "nf".data ⟨[]⟩
     ⟨"o".data, "r".data, some "docs".data, some "docs/app.md".data, true⟩
     "app".data none "docs/app.md".data (by rfl),
   c8_check_exists_404.2.2 ⟨false, 500, "Server Error".data, "boom".data⟩ ⟨[]⟩
     "x.json".data rfl (by decide)⟩

theorem b64Index_b64Char : ∀ n, n < 64 → b64Index (b64Char n) = n := by decide

theorem b64Char_lt_ne_pad : ∀ n, n < 64 → b64Char n ≠ '=' := by decide

theorem b64Char_ne_pad (n : Nat) : b64Char n ≠ '=' := by
  by_cases h : n < 64
  · exact b64Char_lt_ne_pad n h
  · unfold b64Char
    rw [List.getD_eq_default]
    · decide
    · have : b64Alphabet.length = 64 := by decide
      omega

theorem utf8Bytes_ascii (s : Str) (h : ∀ c ∈ s, c.toNat < 128) :
    utf8Bytes s = s.map Char.toNat := by
  induction s with
  | nil => rfl
  | cons c cs ih =>
    have hc : c.toNat < 128 := h c (List.mem_cons_self _ _)
    have hcs := ih (fun x hx => h x (List.mem_cons_of_mem _ hx))
    unfold utf8Bytes at hcs ⊢
    simp only [List.flatMap_cons, List.map_cons]
    rw [show utf8EncodeChar c.toNat = [c.toNat] from by
      unfold utf8EncodeChar; rw [if_pos hc], hcs]
    rfl

theorem b64_roundtrip : ∀ (bs : List Nat), (∀ b ∈ bs, b < 256) →
    base64DecodeChars (base64EncodeBytes bs) = bs
  | [], _ => rfl
  | [a], h => by
    have ha : a < 256 := h a (by simp)
    unfold base64EncodeBytes base64DecodeChars
    rw [if_pos rfl]
    rw [b64Index_b64Char _ (by omega), b64Index_b64Char _ (by omega)]
    simp only [List.cons.injEq, and_true]
    omega
  | [a, b], h => by
    have ha : a < 256 := h a (by simp)
    have hb : b < 256 := h b (by simp)
    unfold base64EncodeBytes base64DecodeChars
    rw [if_neg (b64Char_ne_pad _), if_pos rfl]
    rw [b64Index_b64Char _ (by omega), b64Index_b64Char _ (by omega),
      b64Index_b64Char _ (by omega)]
    simp only [List.cons.injEq, and_true]
    omega
  | a :: b :: c :: rest, h => by
    have ha : a < 256 := h a (by simp)
    have hb : b < 256 := h b (by simp)
    have hc : c < 256 := h c (by simp)
    have hrec := b64_roundtrip rest (fun x hx => h x (by simp [hx]))
    unfold base64EncodeBytes base64DecodeChars
    rw [if_neg (b64Char_ne_pad _), if_neg (b64Char_ne_pad _)]
    rw [b64Index_b64Char _ (by omega), b64Index_b64Char _ (by omega),
      b64Index_b64Char _ (by omega), b64Index_b64Char _ (by omega)]
    rw [hrec]
    simp only [List.cons.injEq]
    refine ⟨by omega, by omega, by omega, by trivial⟩

/-- C10 counterexample: the decode side (`atob` with no UTF-8 decoding)
does not invert `encodeBase64` on the non-ASCII string `"é"`. -/
theorem c10_counterexample : atobStr (encodeBase64 "é".data) ≠ "é".data := by
  decide

/-- C10 (amended): for every string all of whose characters are ASCII
(code points below 128), the `atob` decoding performed by the
get-file-content executor inverts `encodeBase64`.  (For non-ASCII
strings the round trip fails, since `atob` returns the raw UTF-8 bytes
as characters.) -/
theorem c10_ascii_roundtrip (s : Str) (h : ∀ c ∈ s, c.toNat < 128) :
    atobStr (encodeBase64 s) = s := by
  unfold atobStr encodeBase64
  rw [utf8Bytes_ascii s h]
  rw [b64_roundtrip (s.map Char.toNat) ?_]
  · have hmap : ∀ l : Str, List.map Char.ofNat (List.map Char.toNat l) = l := by
      intro l
      induction l with
      | nil => rfl
      | cons c cs ih => simp [Char.ofNat_toNat, ih]
    exact hmap s
  · intro x hx
    obtain ⟨c, hcm, rfl⟩ := List.mem_map.mp hx
    have := h c hcm
    omega

/-- Witness for C10 at the ASCII string `"hello"`. -/
theorem c10_ascii_roundtrip_witness :
    atobStr (encodeBase64 "hello".data) = "hello".data :=
  c10_ascii_roundtrip "hello".data (by decide)

end Mcps
